import Mathlib

/-!
Verification of the rich-text mini-markup renderer of `src/lib/richText.tsx`.

The renderer is embedded shallowly: JavaScript strings become `List Char`,
the two regular expressions become explicit leftmost-match scanners
(`findBracket` for the bracket-highlight pattern, `findToken` for the lazy
style-token pattern), and the two mutually recursive rendering passes become
fuel-driven structural recursions (`renderBHGo`, `rtGo`/`loopGo`) wrapped by
the source-named entry points `renderBracketHighlights`,
`renderRichTextInternal`, `renderRichText` and `RichText`.  React elements
are modelled by `Node`; the key-prefix strings threaded through the source
only name React reconciliation keys and carry no rendered content, so they
are omitted from the node model.
-/

set_option linter.unusedVariables false

namespace RT

/-- Characters of a JavaScript string, as a list of Unicode characters. -/
abbrev Chars := List Char

/-- A render node: a plain-text run or a styled span wrapping child nodes. -/
inductive Node where
  | text (value : Chars)
  | styled (styleClass : Chars) (children : List Node)

/-- The static style table `RICH_TEXT_STYLES` (source lines 3-17). -/
def RICH_TEXT_STYLES : List (Chars × Chars) := [
  (("mark").toList, ("text-red-600 font-bold").toList),
  (("red").toList, ("text-red-600 font-semibold").toList),
  (("danger").toList, ("text-red-600 font-semibold").toList),
  (("amber").toList, ("text-amber-600 font-semibold").toList),
  (("warning").toList, ("text-amber-600 font-semibold").toList),
  (("green").toList, ("text-emerald-600 font-semibold").toList),
  (("success").toList, ("text-emerald-600 font-semibold").toList),
  (("blue").toList, ("text-blue-600 font-semibold").toList),
  (("info").toList, ("text-blue-600 font-semibold").toList),
  (("primary").toList, ("text-primary-700 font-semibold").toList),
  (("muted").toList, ("text-neutral-600").toList),
  (("strong").toList, ("font-semibold text-primary-900").toList),
  (("underline").toList, ("underline").toList)]

/-- The class attached to bracket highlights: `RICH_TEXT_STYLES.mark`. -/
def markClass : Chars := ("text-red-600 font-bold").toList

/-- The class the table resolves for the key `red`. -/
def redClass : Chars := ("text-red-600 font-semibold").toList

/-- Whitespace characters removed by JavaScript `String.trim` (the ones
    expressible in the inputs considered here). -/
def jsSpace (c : Char) : Bool := c = ' ' || c = '\t' || c = '\n' || c = '\r'

/-- JavaScript `String.trim`. -/
def trimChars (s : Chars) : Chars := ((s.dropWhile jsSpace).reverse.dropWhile jsSpace).reverse

/-- Property names the style-table object literal inherits from
    `Object.prototype` and that the key pattern `[a-zA-Z0-9_-]+` can
    produce: bracket access on the object finds these on the prototype
    chain, and each resolves to a truthy value (a function, or the
    prototype object itself for `__proto__`). -/
def protoKeys : List Chars := [
  ("constructor").toList, ("hasOwnProperty").toList, ("isPrototypeOf").toList,
  ("propertyIsEnumerable").toList, ("toLocaleString").toList, ("toString").toList,
  ("valueOf").toList, ("__defineGetter__").toList, ("__defineSetter__").toList,
  ("__lookupGetter__").toList, ("__lookupSetter__").toList, ("__proto__").toList]

/-- JavaScript bracket access `RICH_TEXT_STYLES[styleKey]` followed by the
    truthiness test of source line 73: an own entry resolves to its class
    string; any other key inherited from `Object.prototype` resolves to a
    truthy non-string value (represented here by the key itself, since only
    its truthiness matters to the renderer); every remaining key gives
    `undefined`, i.e. `none`. -/
def styleTableGet (key : Chars) : Option Chars :=
  match RICH_TEXT_STYLES.lookup key with
  | some cls => some cls
  | none => if protoKeys.contains key then some key else none

/-- Split a text at the first `》`: the run before it and the rest after it. -/
def splitAtClose : Chars → Option (Chars × Chars)
  | [] => none
  | a :: rest =>
    if a = '》' then some ([], rest)
    else (splitAtClose rest).map fun p => (a :: p.1, p.2)

/-- Match the bracket-highlight pattern at the head of the text: a `《`,
    then one or more characters none of which is `》`, then `》`.  Returns the
    full matched run (brackets included) and the remainder. -/
def bracketMatchAt : Chars → Option (Chars × Chars)
  | [] => none
  | a :: rest =>
    if a = '《' then
      match splitAtClose rest with
      | some (body, rest2) => if body = [] then none else some ('《' :: body ++ ['》'], rest2)
      | none => none
    else none

/-- Leftmost bracket-highlight match: gap before the match, the matched run,
    and the remainder after it. -/
def findBracket : Chars → Option (Chars × Chars × Chars)
  | [] => none
  | a :: t =>
    match bracketMatchAt (a :: t) with
    | some (m, rest) => some ([], m, rest)
    | none => (findBracket t).map fun p => (a :: p.1, p.2.1, p.2.2)

/-- Fuel-driven match loop of `renderBracketHighlights` (source lines 27-43).
    The fuel only bounds the number of matches; `renderBracketHighlights`
    supplies more fuel than the text can consume. -/
def renderBHGo : Nat → Chars → List Node
  | 0, _ => []
  | fuel+1, text =>
    match findBracket text with
    | none => if text = [] then [] else [Node.text text]
    | some (pre, m, rest) =>
      (if pre = [] then [] else [Node.text pre]) ++
        Node.styled markClass [Node.text m] :: renderBHGo fuel rest

/-- `renderBracketHighlights` (source lines 19-46). -/
def renderBracketHighlights (text : Chars) : List Node := renderBHGo (text.length + 1) text

/-- The character class `[a-zA-Z0-9_-]` of style-token keys. -/
def isKeyChar (c : Char) : Bool :=
  ('a' ≤ c && c ≤ 'z') || ('A' ≤ c && c ≤ 'Z') || ('0' ≤ c && c ≤ '9') || c = '_' || c = '-'

/-- Split a text at the first occurrence of two consecutive closing braces:
    the run before that occurrence and the rest after it. -/
def splitAtDD : Chars → Option (Chars × Chars)
  | [] => none
  | a :: rest =>
    if a = '\x7d' then
      match rest with
      | b :: rest2 =>
        if b = '\x7d' then some ([], rest2)
        else (splitAtDD rest).map fun p => (a :: p.1, p.2)
      | [] => none
    else (splitAtDD rest).map fun p => (a :: p.1, p.2)

/-- Match the style-token pattern at the head of the text: two opening
    braces, a maximal nonempty run of key characters, a colon, then the lazy
    content capture ending at the first pair of closing braces.  Returns the
    key, the content and the remainder after the token. -/
def tokenMatchAt : Chars → Option (Chars × Chars × Chars)
  | a :: b :: rest =>
    if a = '\x7b' && b = '\x7b' then
      if rest.takeWhile isKeyChar = [] then none
      else
        match rest.dropWhile isKeyChar with
        | c :: rest3 =>
          if c = ':' then
            match splitAtDD rest3 with
            | some (content, rest4) => some (rest.takeWhile isKeyChar, content, rest4)
            | none => none
          else none
        | [] => none
    else none
  | _ => none

/-- Leftmost style-token match: gap before the token, key, content, and the
    remainder after the token. -/
def findToken : Chars → Option (Chars × Chars × Chars × Chars)
  | [] => none
  | a :: t =>
    match tokenMatchAt (a :: t) with
    | some (k, c, rest) => some ([], k, c, rest)
    | none => (findToken t).map fun p => (a :: p.1, p.2.1, p.2.2.1, p.2.2.2)

mutual

/-- Fuel-driven `renderRichTextInternal` (source lines 48-92): empty text
    renders nothing, depth beyond the ceiling returns the text verbatim,
    otherwise the style-token scan runs. -/
def rtGo : Nat → Chars → Nat → List Node
  | 0, _, _ => []
  | fuel+1, text, depth =>
    if text = [] then []
    else if 8 < depth then [Node.text text]
    else loopGo fuel text depth

/-- Fuel-driven style-token scan loop (source lines 59-89): each match emits
    the gap through the bracket pass, then the token's children (wrapped when
    bracket access on the style-table object resolves a truthy value for the
    trimmed key — an own entry or an inherited prototype property — spliced
    otherwise), and the loop continues on the remainder; the final remainder
    goes through the bracket pass. -/
def loopGo : Nat → Chars → Nat → List Node
  | 0, _, _ => []
  | fuel+1, text, depth =>
    match findToken text with
    | none => renderBracketHighlights text
    | some (pre, key, content, rest) =>
      renderBracketHighlights pre ++
        (match styleTableGet (trimChars key) with
         | some cls => [Node.styled cls (rtGo fuel content (depth+1))]
         | none => rtGo fuel content (depth+1)) ++
        loopGo fuel rest depth

end

/-- `renderRichTextInternal` at its natural fuel. -/
def renderRichTextInternal (text : Chars) (depth : Nat) : List Node :=
  rtGo (text.length + 1) text depth

/-- `renderRichText` (source lines 94-96): the top-level call at depth 0. -/
def renderRichText (text : Chars) : List Node := renderRichTextInternal text 0

/-- The `RichText` component (source lines 98-101): absent or empty text
    renders nothing. -/
def RichText : Option Chars → List Node
  | none => []
  | some t => if t = [] then [] else renderRichText t

mutual

/-- The textual content of a node, style wrapping ignored. -/
def Node.flatten : Node → Chars
  | .text v => v
  | .styled _ cs => flattenNodes cs

/-- The concatenated textual content of a node sequence. -/
def flattenNodes : List Node → Chars
  | [] => []
  | n :: ns => n.flatten ++ flattenNodes ns

end

mutual

/-- Structural (deep) equality of nodes. -/
def nodeEqB : Node → Node → Bool
  | .text a, .text b => a == b
  | .styled c1 l1, .styled c2 l2 => c1 == c2 && nodesEqB l1 l2
  | _, _ => false

/-- Structural (deep) equality of node sequences. -/
def nodesEqB : List Node → List Node → Bool
  | [], [] => true
  | a :: as, b :: bs => nodeEqB a b && nodesEqB as bs
  | _, _ => false

end

/-- Does the text contain two consecutive opening braces? -/
def containsOO : Chars → Bool
  | a :: b :: t => (a = '\x7b' && b = '\x7b') || containsOO (b :: t)
  | _ => false

/-- Does the text contain two consecutive closing braces? -/
def containsDD : Chars → Bool
  | a :: b :: t => (a = '\x7d' && b = '\x7d') || containsDD (b :: t)
  | _ => false

/-- The rendered text of a style token `\x7b\x7bkey:content\x7d\x7d`
    followed by a remainder. -/
def tokTextR (k c s : Chars) : Chars :=
  '\x7b' :: '\x7b' :: (k ++ ':' :: (c ++ '\x7d' :: '\x7d' :: s))

/-- A markup segment of a well-formed input: a plain run or one style token.
    Per the grammar, a token's content is the minimal run up to the first
    pair of closing braces, so it cannot itself contain a complete token;
    well-formed markup is therefore a flat sequence of these segments. -/
inductive Seg where
  | raw (s : Chars)
  | tok (key content : Chars)

/-- The concrete text of a segment. -/
def Seg.render : Seg → Chars
  | .raw s => s
  | .tok k c => tokTextR k c []

/-- The concrete text of a segment sequence. -/
def renderSegs : List Seg → Chars
  | [] => []
  | s :: rest => s.render ++ renderSegs rest

/-- No brace character occurs in the text. -/
def noBrace (s : Chars) : Bool := s.all fun a => !(a = '\x7b' || a = '\x7d')

/-- Well-formedness of a segment: a raw run is brace-free, a token has a
    nonempty key of key characters and brace-free content. -/
def Seg.wf : Seg → Bool
  | .raw s => noBrace s
  | .tok k c => !k.isEmpty && k.all isKeyChar && noBrace c

/-- Well-formedness of a segment sequence. -/
def wfSegs (l : List Seg) : Bool := l.all Seg.wf

/-- A segment's text with the token delimiters removed. -/
def Seg.strip : Seg → Chars
  | .raw s => s
  | .tok _ c => c

/-- The text of a segment sequence with all token delimiters removed. -/
def stripSegs : List Seg → Chars
  | [] => []
  | s :: rest => s.strip ++ stripSegs rest

/-- Transformation following the words of the spec's section-3 invariant:
    remove the matched style-token delimiters and then remove every bracket
    glyph character. -/
def stripTokensGo : Nat → Chars → Chars
  | 0, s => s
  | fuel+1, s =>
    match findToken s with
    | none => s
    | some (pre, _k, c, rest) => pre ++ c ++ stripTokensGo fuel rest

/-- Transformation following the words of the spec's section-3 invariant:
    the input with the token delimiters and both bracket glyphs removed. -/
def specRemoveAllDelims (s : Chars) : Chars :=
  (stripTokensGo (s.length + 1) s).filter fun a => !(a = '《' || a = '》')

/-! ### The bracket-highlight scanner -/

theorem splitAtClose_eq : ∀ {s body rest : Chars}, splitAtClose s = some (body, rest) →
    s = body ++ '》' :: rest ∧ '》' ∉ body := by
  intro s
  induction s with
  | nil => intro body rest h; simp [splitAtClose] at h
  | cons a t ih =>
    intro body rest h
    simp only [splitAtClose] at h
    by_cases ha : a = '》'
    · rw [if_pos ha] at h
      simp only [Option.some.injEq, Prod.mk.injEq] at h
      obtain ⟨hb, hr⟩ := h
      subst hb; subst hr; subst ha
      exact ⟨rfl, by simp⟩
    · rw [if_neg ha] at h
      cases hsp : splitAtClose t with
      | none => rw [hsp] at h; simp at h
      | some p =>
        obtain ⟨b', r'⟩ := p
        rw [hsp] at h
        simp only [Option.map_some', Option.some.injEq, Prod.mk.injEq] at h
        obtain ⟨hb, hr⟩ := h
        subst hb; subst hr
        obtain ⟨ht, hmem⟩ := ih hsp
        subst ht
        refine ⟨by simp, ?_⟩
        simp only [List.mem_cons, not_or]
        exact ⟨fun he => ha he.symm, hmem⟩

theorem bracketMatchAt_eq {s m rest : Chars} (h : bracketMatchAt s = some (m, rest)) :
    (∃ body, body ≠ [] ∧ '》' ∉ body ∧ m = '《' :: body ++ ['》']) ∧ s = m ++ rest := by
  cases s with
  | nil => simp [bracketMatchAt] at h
  | cons a t =>
    simp only [bracketMatchAt] at h
    by_cases ha : a = '《'
    · rw [if_pos ha] at h
      cases hsp : splitAtClose t with
      | none => rw [hsp] at h; simp at h
      | some p =>
        obtain ⟨body, r2⟩ := p
        rw [hsp] at h
        simp only at h
        by_cases hb : body = []
        · rw [if_pos hb] at h; simp at h
        · rw [if_neg hb] at h
          simp only [Option.some.injEq, Prod.mk.injEq] at h
          obtain ⟨hm, hr⟩ := h
          subst hm; subst hr
          obtain ⟨ht, hmem⟩ := splitAtClose_eq hsp
          subst ht; subst ha
          exact ⟨⟨body, hb, hmem, rfl⟩, by simp⟩
    · rw [if_neg ha] at h; simp at h

theorem findBracket_eq : ∀ {s pre m rest : Chars}, findBracket s = some (pre, m, rest) →
    s = pre ++ m ++ rest ∧ ∃ body, body ≠ [] ∧ '》' ∉ body ∧ m = '《' :: body ++ ['》'] := by
  intro s
  induction s with
  | nil => intro pre m rest h; simp [findBracket] at h
  | cons a t ih =>
    intro pre m rest h
    simp only [findBracket] at h
    cases hm : bracketMatchAt (a :: t) with
    | some p =>
      obtain ⟨m', r'⟩ := p
      rw [hm] at h
      simp only [Option.some.injEq, Prod.mk.injEq] at h
      obtain ⟨hp, hmm, hr⟩ := h
      subst hp; subst hmm; subst hr
      obtain ⟨hshape, hs⟩ := bracketMatchAt_eq hm
      exact ⟨by simpa using hs, hshape⟩
    | none =>
      rw [hm] at h
      simp only at h
      cases hf : findBracket t with
      | none => rw [hf] at h; simp at h
      | some q =>
        obtain ⟨p', m', r'⟩ := q
        rw [hf] at h
        simp only [Option.map_some', Option.some.injEq, Prod.mk.injEq] at h
        obtain ⟨hp, hmm, hr⟩ := h
        subst hp; subst hmm; subst hr
        obtain ⟨ht, hshape⟩ := ih hf
        exact ⟨by rw [ht]; simp, hshape⟩

theorem findBracket_length {s pre m rest : Chars} (h : findBracket s = some (pre, m, rest)) :
    s.length = pre.length + m.length + rest.length ∧ 3 ≤ m.length := by
  obtain ⟨hs, body, hbne, _, hm⟩ := findBracket_eq h
  have hb : 1 ≤ body.length := List.length_pos.mpr hbne
  subst hs; subst hm
  simp [List.length_append]
  omega

theorem findBracket_none_of_not_mem {s : Chars} (h : '》' ∉ s) : findBracket s = none := by
  cases hf : findBracket s with
  | none => rfl
  | some q =>
    obtain ⟨pre, m, rest⟩ := q
    obtain ⟨hs, body, _, _, hm⟩ := findBracket_eq hf
    exfalso
    apply h
    rw [hs, hm]
    simp

/-! ### The bracket-highlight pass preserves text -/

theorem flattenNodes_append (xs ys : List Node) :
    flattenNodes (xs ++ ys) = flattenNodes xs ++ flattenNodes ys := by
  induction xs with
  | nil => simp [flattenNodes]
  | cons n ns ih => simp [flattenNodes, ih]

theorem renderBHGo_congr : ∀ f g s, s.length < f → s.length < g → renderBHGo f s = renderBHGo g s := by
  intro f
  induction f with
  | zero => intro g s h _; exact absurd h (Nat.not_lt_zero _)
  | succ f ih =>
    intro g s hf hg
    cases g with
    | zero => exact absurd hg (Nat.not_lt_zero _)
    | succ g =>
      cases hfb : findBracket s with
      | none => simp only [renderBHGo, hfb]
      | some q =>
        obtain ⟨pre, m, rest⟩ := q
        obtain ⟨hl, hm⟩ := findBracket_length hfb
        simp only [renderBHGo, hfb]
        rw [ih g rest (by omega) (by omega)]

theorem flatten_renderBHGo : ∀ f s, s.length < f → flattenNodes (renderBHGo f s) = s := by
  intro f
  induction f with
  | zero => intro s h; exact absurd h (Nat.not_lt_zero _)
  | succ f ih =>
    intro s hf
    cases hfb : findBracket s with
    | none =>
      simp only [renderBHGo, hfb]
      by_cases hs : s = []
      · subst hs; simp [flattenNodes]
      · rw [if_neg hs]; simp [flattenNodes, Node.flatten]
    | some q =>
      obtain ⟨pre, m, rest⟩ := q
      obtain ⟨hl, hm⟩ := findBracket_length hfb
      obtain ⟨hs, _⟩ := findBracket_eq hfb
      simp only [renderBHGo, hfb]
      rw [flattenNodes_append]
      have hrec : flattenNodes (renderBHGo f rest) = rest := ih rest (by omega)
      by_cases hp : pre = []
      · subst hp
        simp only [if_pos rfl]
        simp [flattenNodes, Node.flatten, hrec, hs]
      · rw [if_neg hp]
        simp [flattenNodes, Node.flatten, hrec, hs]

theorem flatten_renderBracketHighlights (s : Chars) :
    flattenNodes (renderBracketHighlights s) = s :=
  flatten_renderBHGo (s.length + 1) s (Nat.lt_succ_self _)

theorem renderBH_step {s pre m rest : Chars} (h : findBracket s = some (pre, m, rest)) :
    renderBracketHighlights s =
      (if pre = [] then [] else [Node.text pre]) ++
        Node.styled markClass [Node.text m] :: renderBracketHighlights rest := by
  obtain ⟨hl, hm⟩ := findBracket_length h
  rw [renderBracketHighlights]
  simp only [renderBHGo, h]
  rw [renderBHGo_congr s.length (rest.length + 1) rest (by omega) (by omega),
    renderBracketHighlights]

/-! ### The style-token scanner -/

theorem mem_takeWhile {p : Char → Bool} : ∀ {l : Chars} {a : Char},
    a ∈ l.takeWhile p → p a = true := by
  intro l
  induction l with
  | nil => intro a h; simp [List.takeWhile] at h
  | cons b t ih =>
    intro a h
    rw [List.takeWhile_cons] at h
    by_cases hb : p b
    · rw [if_pos hb] at h
      rcases List.mem_cons.mp h with h1 | h2
      · subst h1; exact hb
      · exact ih h2
    · rw [if_neg hb] at h; simp at h

theorem takeWhile_key_append {p : Char → Bool} : ∀ {k : Chars} {x : Char} {t : Chars},
    (∀ a ∈ k, p a = true) → p x = false →
    (k ++ x :: t).takeWhile p = k ∧ (k ++ x :: t).dropWhile p = x :: t := by
  intro k
  induction k with
  | nil =>
    intro x t _ hx
    simp [List.takeWhile_cons, List.dropWhile_cons, hx]
  | cons a k' ih =>
    intro x t hk hx
    have ha : p a = true := hk a (List.mem_cons_self a k')
    obtain ⟨h1, h2⟩ := ih (t := t) (fun b hb => hk b (List.mem_cons_of_mem a hb)) hx
    simp [List.takeWhile_cons, List.dropWhile_cons, ha, h1, h2]

theorem splitAtDD_eq : ∀ {s c rest : Chars}, splitAtDD s = some (c, rest) →
    s = c ++ '\x7d' :: '\x7d' :: rest ∧ containsDD c = false := by
  intro s
  induction s with
  | nil => intro c rest h; simp [splitAtDD] at h
  | cons a t ih =>
    intro c rest h
    simp only [splitAtDD] at h
    by_cases ha : a = '\x7d'
    · rw [if_pos ha] at h
      cases t with
      | nil => simp at h
      | cons b t2 =>
        simp only at h
        by_cases hb : b = '\x7d'
        · rw [if_pos hb] at h
          simp only [Option.some.injEq, Prod.mk.injEq] at h
          obtain ⟨h1, h2⟩ := h
          subst h1; subst h2; subst ha; subst hb
          exact ⟨rfl, rfl⟩
        · rw [if_neg hb] at h
          cases hsp : splitAtDD (b :: t2) with
          | none => rw [hsp] at h; simp at h
          | some p =>
            obtain ⟨c', r'⟩ := p
            rw [hsp] at h
            simp only [Option.map_some', Option.some.injEq, Prod.mk.injEq] at h
            obtain ⟨h1, h2⟩ := h
            subst h1; subst h2
            obtain ⟨ht, hdd⟩ := ih hsp
            refine ⟨by simp [ht], ?_⟩
            cases c' with
            | nil => rfl
            | cons e c'' =>
              have he : b = e := by
                rw [List.cons_append] at ht
                exact (List.cons.injEq .. ▸ ht).1
              simp only [containsDD, Bool.or_eq_false_iff]
              exact ⟨by simp [← he, hb], hdd⟩
    · rw [if_neg ha] at h
      cases hsp : splitAtDD t with
      | none => rw [hsp] at h; simp at h
      | some p =>
        obtain ⟨c', r'⟩ := p
        rw [hsp] at h
        simp only [Option.map_some', Option.some.injEq, Prod.mk.injEq] at h
        obtain ⟨h1, h2⟩ := h
        subst h1; subst h2
        obtain ⟨ht, hdd⟩ := ih hsp
        refine ⟨by simp [ht], ?_⟩
        cases c' with
        | nil => rfl
        | cons e c'' =>
          simp only [containsDD, Bool.or_eq_false_iff]
          exact ⟨by simp [ha], hdd⟩

theorem splitAtDD_render : ∀ {c : Chars} {s : Chars}, (∀ a ∈ c, a ≠ '\x7d') →
    splitAtDD (c ++ '\x7d' :: '\x7d' :: s) = some (c, s) := by
  intro c
  induction c with
  | nil => intro s _; simp [splitAtDD]
  | cons a c' ih =>
    intro s hc
    have ha : a ≠ '\x7d' := hc a (List.mem_cons_self a c')
    rw [List.cons_append]
    simp only [splitAtDD, if_neg ha]
    rw [ih (fun x hx => hc x (List.mem_cons_of_mem a hx))]
    rfl

theorem tokenMatchAt_not_open {a : Char} {t : Chars} (ha : a ≠ '\x7b') :
    tokenMatchAt (a :: t) = none := by
  cases t with
  | nil => rfl
  | cons b t2 => simp [tokenMatchAt, ha]

theorem tokenMatchAt_eq {s k c rest : Chars} (h : tokenMatchAt s = some (k, c, rest)) :
    s = tokTextR k c rest ∧ k ≠ [] ∧ (∀ a ∈ k, isKeyChar a = true) ∧ containsDD c = false := by
  match s with
  | [] => simp [tokenMatchAt] at h
  | [a] => simp [tokenMatchAt] at h
  | a :: b :: r =>
    simp only [tokenMatchAt] at h
    by_cases hab : (a = '\x7b' && b = '\x7b') = true
    · rw [if_pos hab] at h
      by_cases hk : r.takeWhile isKeyChar = []
      · rw [if_pos hk] at h; simp at h
      · rw [if_neg hk] at h
        cases hd : r.dropWhile isKeyChar with
        | nil => rw [hd] at h; simp at h
        | cons c0 rest3 =>
          rw [hd] at h
          simp only at h
          by_cases hc0 : c0 = ':'
          · rw [if_pos hc0] at h
            cases hsp : splitAtDD rest3 with
            | none => rw [hsp] at h; simp at h
            | some p =>
              obtain ⟨con, r4⟩ := p
              rw [hsp] at h
              simp only [Option.some.injEq, Prod.mk.injEq] at h
              obtain ⟨h1, h2, h3⟩ := h
              subst h1; subst h2; subst h3
              obtain ⟨hr3, hdd⟩ := splitAtDD_eq hsp
              have hr : r = r.takeWhile isKeyChar ++ ':' :: rest3 := by
                conv_lhs => rw [← List.takeWhile_append_dropWhile (p := isKeyChar) (l := r)]
                rw [hd, hc0]
              obtain ⟨ha2, hb2⟩ : a = '\x7b' ∧ b = '\x7b' := by simpa using hab
              refine ⟨?_, hk, fun x hx => mem_takeWhile hx, hdd⟩
              subst ha2; subst hb2
              rw [hr3] at hr
              rw [tokTextR, ← hr]
          · rw [if_neg hc0] at h; simp at h
    · rw [if_neg hab] at h; simp at h

theorem tokenMatchAt_render {k c s : Chars} (hk1 : k ≠ []) (hk2 : ∀ a ∈ k, isKeyChar a = true)
    (hc : ∀ a ∈ c, a ≠ '\x7d') :
    tokenMatchAt (tokTextR k c s) = some (k, c, s) := by
  have hcol : isKeyChar ':' = false := by decide
  obtain ⟨htw, hdw⟩ := takeWhile_key_append (t := c ++ '\x7d' :: '\x7d' :: s) hk2 hcol
  rw [tokTextR]
  simp only [tokenMatchAt, htw, hdw, if_neg hk1, splitAtDD_render hc]
  simp

theorem findToken_eq : ∀ {s pre k c rest : Chars}, findToken s = some (pre, k, c, rest) →
    s = pre ++ tokTextR k c rest ∧ k ≠ [] ∧ (∀ a ∈ k, isKeyChar a = true) ∧
      containsDD c = false := by
  intro s
  induction s with
  | nil => intro pre k c rest h; simp [findToken] at h
  | cons a t ih =>
    intro pre k c rest h
    simp only [findToken] at h
    cases hm : tokenMatchAt (a :: t) with
    | some p =>
      obtain ⟨k', c', r'⟩ := p
      rw [hm] at h
      simp only [Option.some.injEq, Prod.mk.injEq] at h
      obtain ⟨h1, h2, h3, h4⟩ := h
      subst h1; subst h2; subst h3; subst h4
      obtain ⟨hs, hk1, hk2, hdd⟩ := tokenMatchAt_eq hm
      exact ⟨by simpa using hs, hk1, hk2, hdd⟩
    | none =>
      rw [hm] at h
      simp only at h
      cases hf : findToken t with
      | none => rw [hf] at h; simp at h
      | some q =>
        obtain ⟨p', k', c', r'⟩ := q
        rw [hf] at h
        simp only [Option.map_some', Option.some.injEq, Prod.mk.injEq] at h
        obtain ⟨h1, h2, h3, h4⟩ := h
        subst h1; subst h2; subst h3; subst h4
        obtain ⟨ht, hk1, hk2, hdd⟩ := ih hf
        exact ⟨by rw [ht]; rfl, hk1, hk2, hdd⟩

theorem findToken_length {s pre k c rest : Chars} (h : findToken s = some (pre, k, c, rest)) :
    s.length = pre.length + k.length + c.length + rest.length + 5 ∧ 1 ≤ k.length := by
  obtain ⟨hs, hk1, _, _⟩ := findToken_eq h
  have hk : 1 ≤ k.length := List.length_pos.mpr hk1
  refine ⟨?_, hk⟩
  subst hs
  simp only [tokTextR, List.length_append, List.length_cons]
  omega

theorem findToken_none_of_no_open : ∀ {s : Chars}, (∀ a ∈ s, a ≠ '\x7b') →
    findToken s = none := by
  intro s
  induction s with
  | nil => intro _; rfl
  | cons a t ih =>
    intro h
    simp only [findToken, tokenMatchAt_not_open (h a (List.mem_cons_self a t)),
      ih (fun x hx => h x (List.mem_cons_of_mem a hx)), Option.map_none']

theorem findToken_none_of_no_OO : ∀ {s : Chars}, containsOO s = false → findToken s = none := by
  intro s
  induction s with
  | nil => intro _; rfl
  | cons a t ih =>
    intro h
    cases t with
    | nil => rfl
    | cons b t2 =>
      simp only [containsOO, Bool.or_eq_false_iff] at h
      obtain ⟨h1, h2⟩ := h
      have hm : tokenMatchAt (a :: b :: t2) = none := by
        simp only [tokenMatchAt]
        rw [if_neg (by simp [h1])]
      have hstep : findToken (a :: b :: t2) =
          (findToken (b :: t2)).map fun p => (a :: p.1, p.2.1, p.2.2.1, p.2.2.2) := by
        have hg : ∀ t : Chars, tokenMatchAt (a :: t) = none → findToken (a :: t) =
            (findToken t).map fun p => (a :: p.1, p.2.1, p.2.2.1, p.2.2.2) := by
          intro t hmt
          simp only [findToken, hmt]
        exact hg (b :: t2) hm
      rw [hstep, ih h2]
      rfl

theorem containsDD_concat : ∀ (x y : Chars), containsDD (x ++ '\x7d' :: '\x7d' :: y) = true := by
  intro x y
  induction x with
  | nil => simp [containsDD]
  | cons a x' ih =>
    rw [List.cons_append]
    cases hx : x' ++ '\x7d' :: '\x7d' :: y with
    | nil => exact absurd hx (by simp)
    | cons e r =>
      simp only [containsDD]
      rw [← hx, ih]
      simp

theorem findToken_none_of_no_DD {s : Chars} (h : containsDD s = false) : findToken s = none := by
  cases hf : findToken s with
  | none => rfl
  | some q =>
    obtain ⟨pre, k, c, rest⟩ := q
    obtain ⟨hs, _, _, _⟩ := findToken_eq hf
    exfalso
    have hsplit : s = (pre ++ '\x7b' :: '\x7b' :: (k ++ ':' :: c)) ++ '\x7d' :: '\x7d' :: rest := by
      rw [hs]; simp [tokTextR]
    rw [hsplit, containsDD_concat] at h
    simp at h

theorem findToken_append_raw : ∀ {r s : Chars}, (∀ a ∈ r, a ≠ '\x7b') →
    findToken (r ++ s) =
      (findToken s).map fun p => (r ++ p.1, p.2.1, p.2.2.1, p.2.2.2) := by
  intro r
  induction r with
  | nil =>
    intro s _
    cases hf : findToken s with
    | none => simp [hf]
    | some q => simp [hf]
  | cons a r' ih =>
    intro s h
    rw [List.cons_append]
    simp only [findToken, tokenMatchAt_not_open (h a (List.mem_cons_self a r')),
      ih (fun x hx => h x (List.mem_cons_of_mem a hx))]
    cases hf : findToken s with
    | none => simp [hf]
    | some q => simp [hf]

theorem findToken_tok {k c s : Chars} (hk1 : k ≠ []) (hk2 : ∀ a ∈ k, isKeyChar a = true)
    (hc : ∀ a ∈ c, a ≠ '\x7d') :
    findToken (tokTextR k c s) = some ([], k, c, s) := by
  have hm := tokenMatchAt_render (s := s) hk1 hk2 hc
  rw [tokTextR] at hm ⊢
  simp only [findToken, hm]

theorem tokTextR_append (k c s : Chars) : tokTextR k c [] ++ s = tokTextR k c s := by
  simp [tokTextR]

theorem tokTextR_length (k c s : Chars) :
    (tokTextR k c s).length = k.length + c.length + s.length + 5 := by
  simp only [tokTextR, List.length_append, List.length_cons]
  omega

theorem noBrace_no_open {s : Chars} (h : noBrace s = true) : ∀ a ∈ s, a ≠ '\x7b' := by
  intro a ha
  have := List.all_eq_true.mp h a ha
  simp at this
  exact this.1

theorem noBrace_no_close {s : Chars} (h : noBrace s = true) : ∀ a ∈ s, a ≠ '\x7d' := by
  intro a ha
  have := List.all_eq_true.mp h a ha
  simp at this
  exact this.2

/-! ### Fuel of the renderer -/

theorem renderBH_nil : renderBracketHighlights [] = [] := rfl

theorem loopGo_nil : ∀ (f d : Nat), loopGo f [] d = [] := by
  intro f d
  cases f with
  | zero => rfl
  | succ f => rfl

theorem rtGo_loopGo_fuel : ∀ f g (text : Chars) (d : Nat),
    (text.length < f → text.length < g → rtGo f text d = rtGo g text d) ∧
    (text.length ≤ f → text.length ≤ g → loopGo f text d = loopGo g text d) := by
  intro f
  induction f with
  | zero =>
    intro g text d
    constructor
    · intro h _; exact absurd h (Nat.not_lt_zero _)
    · intro hf _
      have ht : text = [] := List.eq_nil_of_length_eq_zero (Nat.le_zero.mp hf)
      subst ht
      rw [loopGo_nil, loopGo_nil]
  | succ f ih =>
    intro g text d
    constructor
    · intro hf hg
      cases g with
      | zero => exact absurd hg (Nat.not_lt_zero _)
      | succ g =>
        by_cases ht : text = []
        · subst ht; rfl
        · simp only [rtGo, if_neg ht]
          by_cases hd : 8 < d
          · rw [if_pos hd, if_pos hd]
          · rw [if_neg hd, if_neg hd]
            exact (ih g text d).2 (by omega) (by omega)
    · intro hf hg
      by_cases ht : text = []
      · subst ht; rw [loopGo_nil, loopGo_nil]
      · cases g with
        | zero =>
          exfalso
          have := List.length_pos.mpr ht
          omega
        | succ g =>
          cases hft : findToken text with
          | none => simp only [loopGo, hft]
          | some q =>
            obtain ⟨pre, k, c, rest⟩ := q
            obtain ⟨hlen, hk⟩ := findToken_length hft
            simp only [loopGo, hft]
            rw [(ih g c (d+1)).1 (by omega) (by omega)]
            rw [(ih g rest d).2 (by omega) (by omega)]

theorem rtGo_eq_internal {f : Nat} {text : Chars} {d : Nat} (h : text.length < f) :
    rtGo f text d = renderRichTextInternal text d := by
  rw [renderRichTextInternal]
  exact (rtGo_loopGo_fuel f (text.length + 1) text d).1 h (Nat.lt_succ_self _)

theorem flatten_rtGo_noBrace : ∀ {f : Nat} {c : Chars} {d : Nat}, (∀ a ∈ c, a ≠ '\x7b') →
    c.length < f → flattenNodes (rtGo f c d) = c := by
  intro f c d hc hf
  cases f with
  | zero => exact absurd hf (Nat.not_lt_zero _)
  | succ f =>
    by_cases ht : c = []
    · subst ht; rfl
    · simp only [rtGo, if_neg ht]
      by_cases hd : 8 < d
      · rw [if_pos hd]; simp [flattenNodes, Node.flatten]
      · rw [if_neg hd]
        have h1 : 1 ≤ c.length := List.length_pos.mpr ht
        cases f with
        | zero => omega
        | succ f2 =>
          simp only [loopGo, findToken_none_of_no_open hc]
          exact flatten_renderBracketHighlights c

/-! ### Round trip on well-formed markup -/

theorem renderSegs_nil_strip : ∀ {l : List Seg}, renderSegs l = [] → stripSegs l = [] := by
  intro l
  induction l with
  | nil => intro _; rfl
  | cons s l' ih =>
    intro h
    cases s with
    | raw r =>
      simp only [renderSegs, Seg.render] at h
      obtain ⟨h1, h2⟩ := List.append_eq_nil.mp h
      simp [stripSegs, Seg.strip, h1, ih h2]
    | tok k c =>
      simp only [renderSegs, Seg.render, tokTextR] at h
      simp at h

theorem flatten_loopGo_wf : ∀ (l : List Seg) (f d : Nat), wfSegs l = true →
    (renderSegs l).length ≤ f →
    flattenNodes (loopGo f (renderSegs l) d) = stripSegs l := by
  intro l
  induction l with
  | nil =>
    intro f d _ _
    rw [show renderSegs [] = [] from rfl, loopGo_nil]
    rfl
  | cons seg l' ih =>
    intro f d hwf hlen
    obtain ⟨hws, hwl⟩ : Seg.wf seg = true ∧ wfSegs l' = true := by
      simpa [wfSegs, List.all_cons] using hwf
    cases seg with
    | raw r =>
      simp only [Seg.wf] at hws
      have hropen : ∀ a ∈ r, a ≠ '\x7b' := noBrace_no_open hws
      have hrender : renderSegs (Seg.raw r :: l') = r ++ renderSegs l' := rfl
      rw [hrender] at hlen ⊢
      have hmap := findToken_append_raw (s := renderSegs l') hropen
      cases f with
      | zero =>
        have h0 : r ++ renderSegs l' = [] := List.eq_nil_of_length_eq_zero (Nat.le_zero.mp hlen)
        obtain ⟨h1, h2⟩ := List.append_eq_nil.mp h0
        rw [h0, loopGo_nil]
        have hstrip : stripSegs (Seg.raw r :: l') = [] := by
          simp [stripSegs, Seg.strip, h1, renderSegs_nil_strip h2]
        rw [hstrip]
        rfl
      | succ f =>
        cases hft : findToken (renderSegs l') with
        | none =>
          have hall : findToken (r ++ renderSegs l') = none := by rw [hmap, hft]; rfl
          simp only [loopGo, hall]
          rw [flatten_renderBracketHighlights]
          have hIH := ih ((renderSegs l').length + 1) d hwl (Nat.le_succ_of_le (Nat.le_refl _))
          rw [show loopGo ((renderSegs l').length + 1) (renderSegs l') d =
              renderBracketHighlights (renderSegs l') from by simp only [loopGo, hft]] at hIH
          rw [flatten_renderBracketHighlights] at hIH
          simp only [stripSegs, Seg.strip]
          rw [hIH]
        | some q =>
          obtain ⟨p, k, c, rr⟩ := q
          have hall : findToken (r ++ renderSegs l') = some (r ++ p, k, c, rr) := by
            rw [hmap, hft]; rfl
          have hlen' : (renderSegs l').length ≤ f + 1 := by
            rw [List.length_append] at hlen; omega
          have hIH := ih (f + 1) d hwl hlen'
          simp only [loopGo, hft] at hIH
          simp only [loopGo, hall]
          rw [flattenNodes_append, flattenNodes_append] at hIH ⊢
          rw [flatten_renderBracketHighlights] at hIH
          rw [flatten_renderBracketHighlights]
          simp only [stripSegs, Seg.strip]
          rw [← hIH]
          simp [List.append_assoc]
    | tok k c =>
      simp only [Seg.wf, Bool.and_eq_true] at hws
      obtain ⟨⟨hk1b, hk2b⟩, hcb⟩ := hws
      have hk1 : k ≠ [] := by simpa using hk1b
      have hk2 : ∀ a ∈ k, isKeyChar a = true := List.all_eq_true.mp hk2b
      have hcc : ∀ a ∈ c, a ≠ '\x7d' := noBrace_no_close hcb
      have hco : ∀ a ∈ c, a ≠ '\x7b' := noBrace_no_open hcb
      have hrender : renderSegs (Seg.tok k c :: l') = tokTextR k c (renderSegs l') := by
        simp only [renderSegs, Seg.render]
        exact tokTextR_append k c (renderSegs l')
      rw [hrender] at hlen ⊢
      have hft := findToken_tok (s := renderSegs l') hk1 hk2 hcc
      have hlenTok := tokTextR_length k c (renderSegs l')
      have hk1len : 1 ≤ k.length := List.length_pos.mpr hk1
      cases f with
      | zero => rw [hlenTok] at hlen; omega
      | succ f =>
        simp only [loopGo, hft]
        rw [renderBH_nil]
        have hIH := ih f d hwl (by rw [hlenTok] at hlen; omega)
        have hchild : flattenNodes (rtGo f c (d+1)) = c :=
          flatten_rtGo_noBrace hco (by rw [hlenTok] at hlen; omega)
        simp only [List.nil_append]
        rw [flattenNodes_append]
        cases hlook : styleTableGet (trimChars k) with
        | none =>
          simp only [hlook]
          rw [hchild, hIH]
          simp [stripSegs, Seg.strip]
        | some cls =>
          simp only [hlook]
          simp only [flattenNodes, Node.flatten]
          rw [hchild, hIH]
          simp [stripSegs, Seg.strip]

theorem flatten_renderRichText_wf (l : List Seg) (h : wfSegs l = true) :
    flattenNodes (renderRichText (renderSegs l)) = stripSegs l := by
  rw [renderRichText, renderRichTextInternal]
  by_cases hS : renderSegs l = []
  · rw [hS]
    rw [renderSegs_nil_strip hS]
    rfl
  · simp only [rtGo, if_neg hS, if_neg (show ¬ (8 < 0) by omega)]
    exact flatten_loopGo_wf l (renderSegs l).length 0 h (Nat.le_refl _)

/-! ### Round trip on arbitrary inputs: only matched token delimiters go -/

theorem flatten_rtGo_noDD : ∀ {f : Nat} {c : Chars} {d : Nat}, containsDD c = false →
    c.length < f → flattenNodes (rtGo f c d) = c := by
  intro f c d hc hf
  cases f with
  | zero => exact absurd hf (Nat.not_lt_zero _)
  | succ f =>
    by_cases ht : c = []
    · subst ht; rfl
    · simp only [rtGo, if_neg ht]
      by_cases hd : 8 < d
      · rw [if_pos hd]; simp [flattenNodes, Node.flatten]
      · rw [if_neg hd]
        have h1 : 1 ≤ c.length := List.length_pos.mpr ht
        cases f with
        | zero => omega
        | succ f2 =>
          simp only [loopGo, findToken_none_of_no_DD hc]
          exact flatten_renderBracketHighlights c

theorem stripTokensGo_congr : ∀ f g (s : Chars), s.length ≤ f → s.length ≤ g →
    stripTokensGo f s = stripTokensGo g s := by
  intro f
  induction f with
  | zero =>
    intro g s hf _
    have ht : s = [] := List.eq_nil_of_length_eq_zero (Nat.le_zero.mp hf)
    subst ht
    cases g with
    | zero => rfl
    | succ g => rfl
  | succ f ih =>
    intro g s hf hg
    cases g with
    | zero =>
      have ht : s = [] := List.eq_nil_of_length_eq_zero (Nat.le_zero.mp hg)
      subst ht
      rfl
    | succ g =>
      cases hft : findToken s with
      | none => simp only [stripTokensGo, hft]
      | some q =>
        obtain ⟨pre, k, c, rest⟩ := q
        obtain ⟨hlen, hk⟩ := findToken_length hft
        simp only [stripTokensGo, hft]
        rw [ih g rest (by omega) (by omega)]

theorem flatten_loopGo_strip : ∀ f (s : Chars) (d : Nat), s.length ≤ f →
    flattenNodes (loopGo f s d) = stripTokensGo f s := by
  intro f
  induction f with
  | zero =>
    intro s d hf
    have ht : s = [] := List.eq_nil_of_length_eq_zero (Nat.le_zero.mp hf)
    subst ht
    rfl
  | succ f ih =>
    intro s d hf
    cases hft : findToken s with
    | none =>
      simp only [loopGo, stripTokensGo, hft]
      exact flatten_renderBracketHighlights s
    | some q =>
      obtain ⟨pre, k, c, rest⟩ := q
      obtain ⟨hlen, hk⟩ := findToken_length hft
      have hdd : containsDD c = false := (findToken_eq hft).2.2.2
      have hchild : flattenNodes (rtGo f c (d+1)) = c := flatten_rtGo_noDD hdd (by omega)
      have hrec := ih rest d (by omega)
      simp only [loopGo, stripTokensGo, hft]
      rw [flattenNodes_append, flattenNodes_append, flatten_renderBracketHighlights]
      cases hlook : styleTableGet (trimChars k) with
      | none =>
        simp only [hlook]
        rw [hchild, hrec]
      | some cls =>
        simp only [hlook]
        simp only [flattenNodes, Node.flatten]
        rw [hchild, hrec]
        simp [List.append_assoc]

theorem flatten_renderRichText_strip (s : Chars) :
    flattenNodes (renderRichText s) = stripTokensGo (s.length + 1) s := by
  rw [renderRichText, renderRichTextInternal]
  by_cases hS : s = []
  · subst hS; rfl
  · simp only [rtGo, if_neg hS, if_neg (show ¬ (8 < 0) by omega)]
    rw [flatten_loopGo_strip s.length s 0 (Nat.le_refl _)]
    exact stripTokensGo_congr s.length (s.length + 1) s (Nat.le_refl _) (Nat.le_succ _)

/-! ### Structural equality is reflexive -/

theorem eqB_refl : ∀ k, (∀ n : Node, sizeOf n ≤ k → nodeEqB n n = true) ∧
    (∀ l : List Node, sizeOf l ≤ k → nodesEqB l l = true) := by
  intro k
  induction k with
  | zero =>
    constructor
    · intro n hn; cases n <;> simp_all
    · intro l hl; cases l <;> simp_all
  | succ k ih =>
    constructor
    · intro n hn
      cases n with
      | text v => simp [nodeEqB]
      | styled c l =>
        have hs : sizeOf l ≤ k := by have := Node.styled.sizeOf_spec c l; omega
        simp [nodeEqB, ih.2 l hs]
    · intro l hl
      cases l with
      | nil => simp [nodesEqB]
      | cons n ns =>
        have h1 : sizeOf n ≤ k := by have := List.cons.sizeOf_spec n ns; omega
        have h2 : sizeOf ns ≤ k := by have := List.cons.sizeOf_spec n ns; omega
        simp [nodesEqB, ih.1 n h1, ih.2 ns h2]

theorem nodesEqB_refl (l : List Node) : nodesEqB l l = true :=
  (eqB_refl (sizeOf l)).2 l (Nat.le_refl _)

/-! ### A text with no matches renders as itself -/

theorem render_plain_of_no_match {s : Chars} (hne : s ≠ []) (hft : findToken s = none)
    (hfb : findBracket s = none) : renderRichText s = [Node.text s] := by
  obtain ⟨n, hn⟩ : ∃ n, s.length = n + 1 :=
    ⟨s.length - 1, by have := List.length_pos.mpr hne; omega⟩
  rw [renderRichText, renderRichTextInternal, hn]
  simp only [rtGo, if_neg hne, if_neg (show ¬ (8 < 0) by omega)]
  simp only [loopGo, hft]
  rw [renderBracketHighlights, hn]
  simp only [renderBHGo, hfb, if_neg hne]

/-! ### Concrete inputs used by the claims -/

/-- The input of the C4 example: a token, then text containing a spare
    closing pair. -/
def exC4 : Chars := ("\x7b\x7bk:a\x7d\x7db\x7d\x7d").toList

/-- The trailing text of the C4 example. -/
def bTail : Chars := ("b\x7d\x7d").toList

/-- The input of the C7 example: a bracket highlight inside a `red` token. -/
def exC7 : Chars := ("\x7b\x7bred:《X》\x7d\x7d").toList

/-- A bracket-highlight run. -/
def exBr : Chars := ("《X》").toList

/-- A simple bracket-highlight input. -/
def exA : Chars := ("《A》").toList

/-- An input with an unterminated token and an unterminated bracket. -/
def exC8 : Chars := ("\x7b\x7bred:《abc").toList

/-- An empty bracket pair. -/
def emptyBr : Chars := ("《》").toList

/-- A `red` token with empty content. -/
def tokRedEmpty : Chars := ("\x7b\x7bred:\x7d\x7d").toList

/-- Eight nested openers around `x`: the content captured by the outermost
    token of `inputC3`. -/
def innerC3 : Chars := (List.replicate 8 (("\x7b\x7ba:").toList)).flatten ++ ['x']

/-- The sixteen closing braces left over after the outermost token of
    `inputC3` is matched. -/
def closersC3 : Chars := List.replicate 16 '\x7d'

/-- Nine levels of nested style tokens around `x`. -/
def inputC3 : Chars := (("\x7b\x7ba:").toList) ++ innerC3 ++ ['\x7d', '\x7d'] ++ closersC3

/-- A well-formed segment list exercising the C2 round trip. -/
def exSegs : List Seg :=
  [Seg.raw (("a《b》").toList), Seg.tok (("red").toList) (("hi").toList), Seg.raw ['c']]

/-! ### The claims -/

/-- C1 (counterexample): the spec's section-3 invariant removes the bracket
    glyphs, but the renderer keeps them: on `《A》` the concatenated output
    text is `《A》`, not `A`. -/
theorem concat_strip_counterexample :
    flattenNodes (renderRichText exA) = exA ∧
    specRemoveAllDelims exA = ['A'] ∧
    flattenNodes (renderRichText exA) ≠ specRemoveAllDelims exA :=
  ⟨rfl, rfl, by decide⟩

/-- An input mixing plain text, a bracket highlight, a table-keyed token, an
    unknown-key token, and stray closing braces. -/
def exMulti : Chars :=
  ("a《b》\x7b\x7bred:x\x7d\x7d\x7b\x7bnope:y\x7d\x7dtail\x7d\x7d").toList

/-- C1 (amended): for every input, concatenating the textual content of all
    returned nodes yields exactly the input with only the matched
    style-token delimiters removed (`stripTokensGo` removes `\x7b\x7bkey:`
    and `\x7d\x7d` of each matched token and keeps everything else); the
    bracket glyphs are not removed, the bracket pass preserving its text
    verbatim, brackets included — no character loss, duplication or
    reordering beyond the token delimiters. -/
theorem concat_preserves_text (s : Chars) :
    flattenNodes (renderRichText s) = stripTokensGo (s.length + 1) s ∧
    flattenNodes (renderBracketHighlights s) = s :=
  ⟨flatten_renderRichText_strip s, flatten_renderBracketHighlights s⟩

theorem concat_preserves_text_witness :
    flattenNodes (renderRichText exMulti) = stripTokensGo (exMulti.length + 1) exMulti ∧
    flattenNodes (renderBracketHighlights exMulti) = exMulti :=
  concat_preserves_text exMulti

/-- C2: for well-formed inputs (a flat sequence of plain runs and style
    tokens, per the non-greedy grammar in which token content cannot contain
    a closing pair), concatenating the textual content of all returned
    nodes, bracket glyphs kept, reconstructs the input with only the token
    delimiters removed. -/
theorem wellformed_roundtrip (l : List Seg) (h : wfSegs l = true) :
    flattenNodes (renderRichText (renderSegs l)) = stripSegs l :=
  flatten_renderRichText_wf l h

theorem wellformed_roundtrip_witness :
    wfSegs exSegs = true ∧
    flattenNodes (renderRichText (renderSegs exSegs)) = stripSegs exSegs :=
  ⟨by decide, wellformed_roundtrip exSegs (by decide)⟩

/-- C3 (counterexample): on nine levels of nested tokens the renderer does
    not recurse to depth 9; the outermost token's lazy content capture stops
    at the first closing pair, so the output is the eight inner openers plus
    `x` as one text node and the sixteen leftover closers as another — not
    the claimed single `x` node. -/
theorem depth_guard_counterexample :
    renderRichText inputC3 = [Node.text innerC3, Node.text closersC3] ∧
    flattenNodes (renderRichText inputC3) ≠ ['x'] :=
  ⟨rfl, by decide⟩

/-- C3 (amended): the source's depth guard returns nonempty text verbatim
    whenever depth exceeds 8, but a matched token's content never contains a
    closing pair, so no nested token is ever parsed inside content and the
    guard is unreachable from the top-level entry; a 9-level nested input is
    instead flattened at depth 1 as shown, with no crash and no infinite
    loop. -/
theorem depth_guard_behavior :
    (∀ (s : Chars) (d : Nat), s ≠ [] → 8 < d → renderRichTextInternal s d = [Node.text s]) ∧
    (∀ s pre k c rest : Chars, findToken s = some (pre, k, c, rest) → containsDD c = false) ∧
    renderRichText inputC3 = [Node.text innerC3, Node.text closersC3] := by
  refine ⟨?_, ?_, rfl⟩
  · intro s d hs hd
    rw [renderRichTextInternal]
    simp only [rtGo, if_neg hs, if_pos hd]
  · intro s pre k c rest h
    exact (findToken_eq h).2.2.2

theorem depth_guard_behavior_witness :
    renderRichTextInternal ['x'] 9 = [Node.text ['x']] ∧ containsDD ['a'] = false :=
  ⟨depth_guard_behavior.1 ['x'] 9 (by decide) (by decide),
   depth_guard_behavior.2.1 (tokTextR ['k'] ['a'] []) [] ['k'] ['a'] [] (by rfl)⟩

/-- C4: a matched style token captures the minimal content up to the first
    closing pair — the decomposition shows the token is closed by the first
    `\x7d\x7d` and the content contains none — and on the example
    `\x7b\x7bk:a\x7d\x7db\x7d\x7d` the token is exactly
    `\x7b\x7bk:a\x7d\x7d`, the trailing `b\x7d\x7d` falling through as
    text. -/
theorem token_first_close (s pre k c rest : Chars) (h : findToken s = some (pre, k, c, rest)) :
    s = pre ++ tokTextR k c rest ∧ containsDD c = false ∧
    renderRichText exC4 = [Node.text ['a'], Node.text bTail] :=
  ⟨(findToken_eq h).1, (findToken_eq h).2.2.2, rfl⟩

theorem token_first_close_witness :
    exC4 = [] ++ tokTextR ['k'] ['a'] bTail ∧ containsDD ['a'] = false ∧
    renderRichText exC4 = [Node.text ['a'], Node.text bTail] :=
  token_first_close exC4 [] ['k'] ['a'] bTail (by rfl)

/-- C5 (counterexample): the empty string contains none of the delimiters,
    yet the renderer returns the empty node sequence, not one empty text
    node. -/
theorem empty_input_counterexample :
    containsOO ([] : Chars) = false ∧ '《' ∉ ([] : Chars) ∧ '》' ∉ ([] : Chars) ∧
    renderRichText [] ≠ [Node.text []] :=
  ⟨rfl, by simp, by simp, fun h => List.noConfusion h⟩

/-- C5 (amended): every nonempty string containing no two consecutive
    opening braces and neither bracket glyph renders as exactly one
    plain-text node equal to itself. -/
theorem plain_text_single_node (s : Chars) (hne : s ≠ []) (h1 : containsOO s = false)
    (h2 : '《' ∉ s) (h3 : '》' ∉ s) :
    renderRichText s = [Node.text s] :=
  render_plain_of_no_match hne (findToken_none_of_no_OO h1) (findBracket_none_of_not_mem h3)

theorem plain_text_single_node_witness :
    ((("hello").toList : Chars) ≠ []) ∧
    renderRichText (("hello").toList) = [Node.text (("hello").toList)] :=
  ⟨by decide, plain_text_single_node (("hello").toList)
    (by decide) (by decide) (by decide) (by decide)⟩

/-- C6 (counterexample): `toString` is not an entry of the style table, yet
    bracket access finds the inherited, truthy `Object.prototype.toString`,
    so the `\x7b\x7btoString:hi\x7d\x7d` token is emitted with a styled
    wrapper — not as the bare child `hi` the claim requires. -/
theorem unknown_key_counterexample :
    RICH_TEXT_STYLES.lookup (trimChars (("toString").toList)) = none ∧
    renderRichText (tokTextR (("toString").toList) (("hi").toList) []) =
      [Node.styled (("toString").toList) [Node.text (("hi").toList)]] ∧
    renderRichText (tokTextR (("toString").toList) (("hi").toList) []) ≠
      [Node.text (("hi").toList)] := by
  refine ⟨by decide, rfl, ?_⟩
  intro h
  have hfalse : nodesEqB
      (renderRichText (tokTextR (("toString").toList) (("hi").toList) []))
      [Node.text (("hi").toList)] = false := rfl
  rw [h, nodesEqB_refl] at hfalse
  exact Bool.noConfusion hfalse

/-- C6 (amended): a style token whose trimmed key resolves to nothing on the
    style-table object — neither an own `StyleTable` entry nor a property
    name inherited from `Object.prototype` — emits its recursively resolved
    children directly, with no wrapper and no content loss; keys hitting
    inherited prototype properties (`toString`, `constructor`, `__proto__`,
    ...) instead receive a styled wrapper carrying the inherited value. -/
theorem unknown_key_unwrapped (k c : Chars) (hk1 : k ≠ []) (hk2 : k.all isKeyChar = true)
    (hc : noBrace c = true) (hlook : styleTableGet (trimChars k) = none) :
    renderRichText (tokTextR k c []) = renderRichTextInternal c 1 ∧
    flattenNodes (renderRichText (tokTextR k c [])) = c := by
  have hk2' := List.all_eq_true.mp hk2
  have hcc := noBrace_no_close hc
  have hco := noBrace_no_open hc
  have hne : tokTextR k c [] ≠ [] := by simp [tokTextR]
  have hlen := tokTextR_length k c []
  simp only [List.length_nil] at hlen
  have hmain : renderRichText (tokTextR k c []) = renderRichTextInternal c 1 := by
    rw [renderRichText, renderRichTextInternal]
    obtain ⟨m, hm, hcm⟩ : ∃ m, (tokTextR k c []).length = m + 1 + 1 ∧ c.length < m + 1 :=
      ⟨k.length + c.length + 3, by omega, by omega⟩
    rw [hm]
    simp only [rtGo, if_neg hne, if_neg (show ¬ (8 < 0) by omega)]
    have hft := findToken_tok (s := ([] : Chars)) hk1 hk2' hcc
    simp only [loopGo, hft, hlook, show findToken ([] : Chars) = none from rfl,
      renderBH_nil, List.nil_append, List.append_nil]
    exact rtGo_eq_internal hcm
  refine ⟨hmain, ?_⟩
  rw [hmain, renderRichTextInternal]
  exact flatten_rtGo_noBrace hco (Nat.lt_succ_self _)

theorem unknown_key_unwrapped_witness :
    styleTableGet (trimChars (("unknownkey").toList)) = none ∧
    renderRichText (tokTextR (("unknownkey").toList) (("hi").toList) []) =
      [Node.text (("hi").toList)] := by
  have h := unknown_key_unwrapped (("unknownkey").toList) (("hi").toList)
    (by decide) (by decide) (by decide) (by decide)
  exact ⟨by decide, h.1.trans (by rfl)⟩

/-- C7: every bracket-highlight match is emitted as one styled node carrying
    the fixed `mark` class and wrapping the literal matched run, brackets
    included; this holds inside style-token content, as the
    `\x7b\x7bred:《X》\x7d\x7d` example shows. -/
theorem bracket_highlight_mark (s pre b rest : Chars) (h : findBracket s = some (pre, b, rest)) :
    renderBracketHighlights s =
      (if pre = [] then [] else [Node.text pre]) ++
        Node.styled markClass [Node.text b] :: renderBracketHighlights rest ∧
    (∃ body, body ≠ [] ∧ '》' ∉ body ∧ b = '《' :: body ++ ['》']) ∧
    renderRichText exC7 = [Node.styled redClass [Node.styled markClass [Node.text exBr]]] := by
  obtain ⟨hseq, body, hbne, hbmem, hbeq⟩ := findBracket_eq h
  exact ⟨renderBH_step h, ⟨body, hbne, hbmem, hbeq⟩, rfl⟩

theorem bracket_highlight_mark_witness :
    renderBracketHighlights exBr =
      (if ([] : Chars) = [] then [] else [Node.text ([] : Chars)]) ++
        Node.styled markClass [Node.text exBr] :: renderBracketHighlights [] ∧
    (∃ body, body ≠ [] ∧ '》' ∉ body ∧ exBr = '《' :: body ++ ['》']) ∧
    renderRichText exC7 = [Node.styled redClass [Node.styled markClass [Node.text exBr]]] :=
  bracket_highlight_mark exBr [] exBr [] (by rfl)

/-- C8: the renderer is total: absent and empty inputs give the empty node
    sequence, and a nonempty input with no closing pair (so any opening
    delimiters are unterminated) and no closing bracket glyph falls through
    as one plain-text node rather than being matched as a token. -/
theorem interpreter_total (s : Chars) (h1 : containsDD s = false) (h2 : '》' ∉ s)
    (h3 : s ≠ []) :
    RichText none = [] ∧ RichText (some []) = [] ∧ renderRichText [] = [] ∧
    renderRichText s = [Node.text s] :=
  ⟨rfl, rfl, rfl,
   render_plain_of_no_match h3 (findToken_none_of_no_DD h1) (findBracket_none_of_not_mem h2)⟩

theorem interpreter_total_witness :
    containsDD exC8 = false ∧ renderRichText exC8 = [Node.text exC8] := by
  have h := interpreter_total exC8 (by decide) (by decide) (by decide)
  exact ⟨by decide, h.2.2.2⟩

/-- C9: the renderer is a pure function of its input: rendering the same
    text twice yields structurally identical (deep-equal) node sequences. -/
theorem interpret_deterministic (s : Chars) :
    nodesEqB (renderRichText s) (renderRichText s) = true ∧
    RichText (some s) = RichText (some s) :=
  ⟨nodesEqB_refl _, rfl⟩

theorem interpret_deterministic_witness :
    nodesEqB (renderRichText exA) (renderRichText exA) = true :=
  (interpret_deterministic exA).1

/-- C10: an empty bracket pair is not a bracket highlight — the pattern
    needs a nonempty body, so `《》` falls through as plain text — while a
    table-keyed token with empty content matches and yields one styled node
    with no children. -/
theorem empty_bracket_vs_empty_token :
    findBracket emptyBr = none ∧
    renderRichText emptyBr = [Node.text emptyBr] ∧
    renderRichText tokRedEmpty = [Node.styled redClass []] :=
  ⟨rfl, rfl, rfl⟩

end RT
